import Mathlib

/-!
Shallow embedding of the yonnde dictionary lookup engine.

The repository contains two generations of the same command-line tool:

* `index.ts` (and its compiled artifact): a `DictionarySearcher` class that
  builds two in-memory maps (term → entries, reading → entries) from the
  on-disk collections, a `findTerm` lookup that unions both buckets, an
  `_formatEntry` normalizer, and a `DictionaryApp` whose `getBasicForm`
  consults an external tokenizer with an empty-result fallback.
* `index.js` / the older TypeScript main: a per-collection query loop
  (`processQuery`) with a memoized lemma (`basicForm`) fallback, and the
  nested-content flattener `logContent`.

Pure parts of both are translated here; file-system and readline I/O are
modelled as explicit input lists (collections of already-read files).
-/

namespace Yonnde

/-- Whitespace as JavaScript's `String.prototype.trim` removes it
(restricted to the ASCII range, which is all the dictionary data uses). -/
def jsWhitespace (c : Char) : Bool :=
  c = ' ' || c = '\t' || c = '\n' || c = '\r' || c = '\x0b' || c = '\x0c'

/-- JavaScript `s.trim()`: drop leading and trailing whitespace. -/
def jsTrim (s : String) : String :=
  ⟨((s.data.dropWhile jsWhitespace).reverse.dropWhile jsWhitespace).reverse⟩

/-- Pieces of a character list split at every occurrence of `sep`
(empty pieces kept, the empty list yielding one empty piece), matching
JavaScript `split` with a one-character separator. -/
def splitCharList (sep : Char) : List Char → List (List Char)
  | [] => [[]]
  | c :: rest =>
      match splitCharList sep rest with
      | [] => [[]]
      | piece :: pieces =>
          if c = sep then [] :: piece :: pieces else (c :: piece) :: pieces

/-- JavaScript `s.split(sep)` for a one-character separator string. -/
def jsSplit (sep : Char) (s : String) : List String :=
  (splitCharList sep s.data).map (fun l => ⟨l⟩)

/-- Recursive structured-content payload: a string, an array, or an object
whose sole field is `content` (possibly absent).  Mirrors
`DictionaryContent` / `NestedContent` from the sources. -/
inductive Content where
  | text : String → Content
  | list : List Content → Content
  | node : Option Content → Content
deriving Repr

/-- JS truthiness of a `content` field value: absent and the empty string
are falsy; arrays and objects (even empty) are truthy. -/
def contentTruthy : Option Content → Bool
  | none => false
  | some (.text s) => s ≠ ""
  | some _ => true

/-- Hex digit used by the JSON string escaper. -/
def hexDigit (n : Nat) : String :=
  String.singleton (Char.ofNat (if n < 10 then 48 + n else 87 + n))

/-- Escape of one character inside a JSON string literal, as
`JSON.stringify` performs it. -/
def escapeChar (c : Char) : String :=
  if c = '"' then "\\\""
  else if c = '\\' then "\\\\"
  else if c = '\n' then "\\n"
  else if c = '\r' then "\\r"
  else if c = '\t' then "\\t"
  else if c = '\x08' then "\\b"
  else if c = '\x0c' then "\\f"
  else if c.toNat < 32 then "\\u00" ++ hexDigit (c.toNat / 16) ++ hexDigit (c.toNat % 16)
  else String.singleton c

/-- JSON string literal for `s`. -/
def quoteStr (s : String) : String :=
  "\"" ++ String.join (s.toList.map escapeChar) ++ "\""

mutual

/-- `JSON.stringify` restricted to the `Content` shape (reached by
`_formatEntry`'s `formatDefinition` when an object has no truthy `content`
field). -/
def jsonStringify : Content → String
  | .text s => quoteStr s
  | .list l => "[" ++ jsonList l ++ "]"
  | .node none => "\x7b\x7d"
  | .node (some c) => "\x7b\"content\":" ++ jsonStringify c ++ "\x7d"

/-- Comma-joined stringification of a JSON array body. -/
def jsonList : List Content → String
  | [] => ""
  | [c] => jsonStringify c
  | c :: c2 :: rest => jsonStringify c ++ "," ++ jsonList (c2 :: rest)

end

mutual

/-- `formatDefinition` from `DictionarySearcher._formatEntry` in `index.ts`:
a string is returned as-is; an object with a truthy `content` field is
unwrapped (arrays joined with `"; "`, strings returned, objects recursed);
anything else is `JSON.stringify`-ed.  A bare array reaching this function
has no `content` field, hence is stringified. -/
def formatDefinition : Content → String
  | .text s => s
  | .list l => jsonStringify (.list l)
  | .node none => jsonStringify (.node none)
  | .node (some (.text s)) =>
      if s = "" then jsonStringify (.node (some (.text ""))) else s
  | .node (some (.list l)) => formatDefList l
  | .node (some (.node c)) => formatDefinition (.node c)

/-- `array.map(formatDefinition).join('; ')`. -/
def formatDefList : List Content → String
  | [] => ""
  | [c] => formatDefinition c
  | c :: c2 :: rest => formatDefinition c ++ "; " ++ formatDefList (c2 :: rest)

end

/-- A raw on-disk entry tuple `[term, reading, tagString, rules, score,
content, sequence, termTags]` (`RawDictionaryEntry` in `index.ts`).
Positions the code defaults with `||` are modelled as `Option`;
`none` stands for an absent (undefined/null) position. -/
structure RawEntry where
  term : String
  reading : String
  tagString : Option String
  rules : Option String
  score : Option Int
  defsField : Content
  sequence : Option Int
  termTags : Option String

/-- Canonical in-memory entry (`DictionaryEntry` in `index.ts`). -/
structure DictionaryEntry where
  term : String
  reading : String
  tags : List String
  rules : String
  score : Int
  definitions : List String
  sequence : Int
  termTags : String
deriving DecidableEq, Repr

/-- `DictionarySearcher._formatEntry` from `index.ts`. -/
def formatEntry (rawEntry : RawEntry) : DictionaryEntry :=
  { term := rawEntry.term
    reading := rawEntry.reading
    tags := (jsSplit ' ' (rawEntry.tagString.getD "")).filter (fun t => t ≠ "")
    rules := rawEntry.rules.getD ""
    score := rawEntry.score.getD 0
    definitions :=
      match rawEntry.defsField with
      | .list l => l.map formatDefinition
      | c => [formatDefinition c]
    sequence := rawEntry.sequence.getD 0
    termTags := rawEntry.termTags.getD "" }

/-- An entry reference: the entry value tagged with its load sequence
number.  Two entries loaded separately are distinct references even when
all their fields coincide, mirroring JS object identity. -/
abbrev EntryRef := Nat × DictionaryEntry

/-- State of a `DictionarySearcher`: the two bucket maps (modelled as
insertion-ordered association lists) and the readiness flag. -/
structure Searcher where
  termDictionaries : List (String × List EntryRef)
  readingIndex : List (String × List EntryRef)
  isReady : Bool

/-- The `DictionarySearcher` constructor: two empty maps, not ready. -/
def newSearcher : Searcher := ⟨[], [], false⟩

/-- `map.get(key) || []`. -/
def getBucket (m : List (String × List EntryRef)) (key : String) : List EntryRef :=
  match m with
  | [] => []
  | (k, vs) :: rest => if k = key then vs else getBucket rest key

/-- `if (!map.has(key)) map.set(key, []); map.get(key).push(v)`. -/
def pushBucket (m : List (String × List EntryRef)) (key : String) (v : EntryRef) :
    List (String × List EntryRef) :=
  match m with
  | [] => [(key, [v])]
  | (k, vs) :: rest =>
      if k = key then (k, vs ++ [v]) :: rest else (k, vs) :: pushBucket rest key v

/-- Indexing one formatted entry under both its term and its reading,
as the inner loop of `loadDictionaries` does. -/
def addEntry (s : Searcher) (id : Nat) (e : DictionaryEntry) : Searcher :=
  { s with
    termDictionaries := pushBucket s.termDictionaries e.term (id, e)
    readingIndex := pushBucket s.readingIndex e.reading (id, e) }

/-- Result of `JSON.parse` on a dictionary file: either an array of raw
entries or a single raw entry object (`Array.isArray(parsed) ? parsed :
[parsed]` in `index.ts`). -/
inductive ParsedJson where
  | arr : List RawEntry → ParsedJson
  | single : RawEntry → ParsedJson

/-- The entry list a parsed file contributes. -/
def entriesOf : ParsedJson → List RawEntry
  | .arr es => es
  | .single e => [e]

/-- A `.json` file inside a collection directory, already read from disk:
its path and its parse result (`none` when `JSON.parse` throws). -/
structure DictFile where
  path : String
  parsed : Option ParsedJson

/-- Raw entries a file contributes to the index (none for a malformed file). -/
def fileRaws (f : DictFile) : List RawEntry :=
  match f.parsed with
  | none => []
  | some pj => entriesOf pj

/-- Load-phase accumulator: the searcher under construction, the parse
error reports emitted so far (by file path), and the next entry identity. -/
structure LoadState where
  searcher : Searcher
  errors : List String
  nextId : Nat

/-- The `for (const entry of entries)` loop of `loadDictionaries`. -/
def loadEntries (st : LoadState) : List RawEntry → LoadState
  | [] => st
  | raw :: rest =>
      let e := formatEntry raw
      loadEntries
        { st with searcher := addEntry st.searcher st.nextId e, nextId := st.nextId + 1 }
        rest

/-- The `for (const file of jsonFiles)` loop: a file whose content fails
to parse is reported with its path and skipped (`continue`); a parsed
file's entries are indexed. -/
def loadFiles (st : LoadState) : List DictFile → LoadState
  | [] => st
  | f :: rest =>
      match f.parsed with
      | none => loadFiles { st with errors := st.errors ++ [f.path] } rest
      | some pj => loadFiles (loadEntries st (entriesOf pj)) rest

/-- The `for (const collection of collections)` loop over the collection
directories. -/
def loadCollections (st : LoadState) : List (List DictFile) → LoadState
  | [] => st
  | c :: rest => loadCollections (loadFiles st c) rest

/-- `DictionarySearcher.loadDictionaries`, with the file system replaced
by the already-read directory tree: returns the searcher (marked ready
only after every collection has been processed) and the parse error
reports. -/
def loadDictionaries (collections : List (List DictFile)) : Searcher × List String :=
  let st := loadCollections ⟨newSearcher, [], 0⟩ collections
  ({ st.searcher with isReady := true }, st.errors)

/-- First-occurrence deduplication with an accumulator of already-seen
elements; `dedupFirst` below models `[...new Set(list)]`, which keeps the
first occurrence of each element in insertion order. -/
def dedupAux {α : Type} [DecidableEq α] (seen : List α) : List α → List α
  | [] => []
  | x :: xs => if x ∈ seen then dedupAux seen xs else x :: dedupAux (x :: seen) xs

/-- `[...new Set(list)]`. -/
def dedupFirst {α : Type} [DecidableEq α] (l : List α) : List α := dedupAux [] l

/-- `DictionarySearcher.findTerm`: errors before the index is ready,
otherwise unions the term bucket and the reading bucket and removes
duplicate references. -/
def findTerm (s : Searcher) (searchTerm : String) : Except String (List EntryRef) :=
  if !s.isReady then .error "Dictionaries not loaded"
  else
    let termResults := getBucket s.termDictionaries searchTerm
    let readingResults := getBucket s.readingIndex searchTerm
    .ok (dedupFirst (termResults ++ readingResults))

/-- The parse-failure report a file contributes (its path, when malformed). -/
def fileBad (f : DictFile) : List String :=
  match f.parsed with
  | none => [f.path]
  | some _ => []

/-- Raw entries contributed by a list of files, in order. -/
def filesRaws : List DictFile → List RawEntry
  | [] => []
  | f :: rest => fileRaws f ++ filesRaws rest

/-- Parse-failure reports contributed by a list of files, in order. -/
def filesBad : List DictFile → List String
  | [] => []
  | f :: rest => fileBad f ++ filesBad rest

/-- All raw entries the load phase accepts, in load order. -/
def goodRaws : List (List DictFile) → List RawEntry
  | [] => []
  | c :: rest => filesRaws c ++ goodRaws rest

/-- All parse-failure paths, in report order. -/
def badPaths : List (List DictFile) → List String
  | [] => []
  | c :: rest => filesBad c ++ badPaths rest

/-- All loaded canonical entries, in load order. -/
def goodEntries (collections : List (List DictFile)) : List DictionaryEntry :=
  (goodRaws collections).map formatEntry

/-- Entry references `(id, entry)` numbered consecutively from `n`. -/
def refsFrom (n : Nat) : List DictionaryEntry → List EntryRef
  | [] => []
  | e :: es => (n, e) :: refsFrom (n + 1) es

/-- A token produced by the kuromoji morphological analyzer
(`KuromojiToken` in `index.ts`). -/
structure KuromojiToken where
  basic_form : String
  pos : String
  pos_detail_1 : String
  pos_detail_2 : String
  pos_detail_3 : String
  conjugated_type : String
  conjugated_form : String
  reading : String
  pronunciation : String
  surface_form : String

/-- `DictionaryApp.getBasicForm` from `index.ts`, with the tokenizer
passed as an explicit capability:
`tokens.length === 0 ? searchTerm : tokens[0].basic_form`. -/
def getBasicForm (tokenize : String → List KuromojiToken) (searchTerm : String) : String :=
  match tokenize searchTerm with
  | [] => searchTerm
  | t :: _ => t.basic_form

/-- The older `getBasicForm` of `index.js` and the pre-class TypeScript
main, which reads `tokens[0].basic_form` without a length guard: on an
empty tokenization `tokens[0]` is `undefined` and the property access
throws, modelled as `none`. -/
def getBasicFormLegacy (tokenize : String → List KuromojiToken) (searchTerm : String) :
    Option String :=
  match tokenize searchTerm with
  | [] => none
  | t :: _ => some t.basic_form

/-- A raw term-bank tuple of the per-collection main
(`DictionaryEntry` in the older TypeScript source):
`[kanji, kana, field2, field3, field4, content]`. -/
structure PEntry where
  term : String
  reading : String
  field2 : String
  field3 : String
  field4 : String
  content : Content

/-- The exact-match filter of `processQuery`: entries whose column 0 or
column 1 equals the search term. -/
def exactMatches (searchTerm : String) (termBank : List PEntry) : List PEntry :=
  termBank.filter (fun e => e.term == searchTerm || e.reading == searchTerm)

/-- JS falsiness of the memoized `basicForm` variable, which starts as
`null` and is tested with `!basicForm` (so the empty string also counts
as unset). -/
def basicFormFalsy : Option String → Bool
  | none => true
  | some s => s == ""

/-- The per-collection loop body of `processQuery` from the older
TypeScript main: each collection is tried for exact matches; failing
that, the memoized lemma form is (re)computed whenever the memo is falsy
and the same equality test is re-run with it.  Returns the displayed
`(collectionName, results)` groups in order together with the number of
invocations of the lemma capability. -/
def resolveCollections (baseForm : String → String) (searchTerm : String)
    (basicForm : Option String) :
    List (String × List PEntry) → List (String × List PEntry) × Nat
  | [] => ([], 0)
  | (collectionName, termBank) :: rest =>
      let results := exactMatches searchTerm termBank
      if results.isEmpty then
        let basicForm2 := if basicFormFalsy basicForm
                          then some (baseForm searchTerm) else basicForm
        let calls := if basicFormFalsy basicForm then 1 else 0
        let bf := basicForm2.getD ""
        let basicFormResults :=
          termBank.filter (fun e => e.term == bf || e.reading == bf)
        let restR := resolveCollections baseForm searchTerm basicForm2 rest
        (if basicFormResults.isEmpty then restR.1
         else (collectionName, basicFormResults) :: restR.1,
         calls + restR.2)
      else
        let restR := resolveCollections baseForm searchTerm basicForm rest
        ((collectionName, results) :: restR.1, restR.2)

mutual

/-- `logContent` from `index.js` / the older TypeScript main: flattens a
structured-content value into the printed lines.  A string is split on
newlines, lines blank after trimming are dropped, and each kept line is
printed as the current indent, a space, then the trimmed line; an array
is flattened element-wise at the same indent; an object dispatches on its
`content` field. -/
def logContent : Content → String → List String
  | .text s, indent =>
      ((jsSplit '\n' s).filter (fun line => jsTrim line ≠ "")).map
        (fun line => indent ++ " " ++ jsTrim line)
  | .list items, indent => logContentList items indent
  | .node c, indent => logContentNode c indent

/-- The object branch of `logContent`: a falsy `content` field (absent or
the empty string) prints nothing; a truthy string prints one line at the
current indent; a nested array or object recurses with the indent grown
by two spaces. -/
def logContentNode : Option Content → String → List String
  | none, _ => []
  | some (.text s), indent => if s = "" then [] else [indent ++ " " ++ jsTrim s]
  | some (.list l), indent => logContentList l (indent ++ "  ")
  | some (.node c), indent => logContentNode c (indent ++ "  ")

/-- The array branch of `logContent`: elements in order, strings handled
exactly as top-level strings, nested values recursed at the same indent. -/
def logContentList : List Content → String → List String
  | [], _ => []
  | item :: rest, indent => logContent item indent ++ logContentList rest indent

end

/-- The indent growth after `k` structural nesting steps of `logContent`:
`k` copies of the two-space increment. -/
def indentExt : Nat → String
  | 0 => ""
  | k + 1 => "  " ++ indentExt k

/-- A string-typed optional tuple position is JS-falsy when it is absent
or the empty string. -/
def strFalsy (o : Option String) : Prop := o = none ∨ o = some ""

/-- A numeric optional tuple position is JS-falsy when it is absent or
zero. -/
def intFalsy (o : Option Int) : Prop := o = none ∨ o = some 0

end Yonnde

namespace Yonnde

/-! Helper lemmas about first-occurrence deduplication (`[...new Set(l)]`). -/

theorem mem_dedupAux {α : Type} [DecidableEq α] (l : List α) :
    ∀ (seen : List α) (a : α), a ∈ dedupAux seen l ↔ a ∈ l ∧ a ∉ seen := by
  induction l with
  | nil => intro seen a; simp [dedupAux]
  | cons x xs ih =>
      intro seen a
      by_cases hx : x ∈ seen
      · simp only [dedupAux, if_pos hx, ih]
        constructor
        · rintro ⟨h1, h2⟩; exact ⟨List.mem_cons_of_mem _ h1, h2⟩
        · rintro ⟨h1, h2⟩
          rcases List.mem_cons.mp h1 with rfl | h1
          · exact absurd hx h2
          · exact ⟨h1, h2⟩
      · simp only [dedupAux, if_neg hx]
        constructor
        · intro h
          rcases List.mem_cons.mp h with rfl | h1
          · exact ⟨List.mem_cons_self _ _, hx⟩
          · obtain ⟨h2, h3⟩ := (ih (x :: seen) a).mp h1
            exact ⟨List.mem_cons_of_mem _ h2,
              fun hc => h3 (List.mem_cons_of_mem _ hc)⟩
        · rintro ⟨h1, h2⟩
          rcases List.mem_cons.mp h1 with rfl | h1
          · exact List.mem_cons_self _ _
          · by_cases hax : a = x
            · subst hax; exact List.mem_cons_self _ _
            · exact List.mem_cons_of_mem _ ((ih (x :: seen) a).mpr
                ⟨h1, fun hc => (List.mem_cons.mp hc).elim hax h2⟩)

theorem nodup_dedupAux {α : Type} [DecidableEq α] (l : List α) :
    ∀ seen : List α, (dedupAux seen l).Nodup := by
  induction l with
  | nil => intro seen; simp [dedupAux]
  | cons x xs ih =>
      intro seen
      by_cases hx : x ∈ seen
      · simpa [dedupAux, if_pos hx] using ih seen
      · simp only [dedupAux, if_neg hx]
        refine List.nodup_cons.mpr ⟨fun hc => ?_, ih _⟩
        have := (mem_dedupAux xs (x :: seen) x).mp hc
        exact this.2 (List.mem_cons_self x seen)

theorem mem_dedupFirst {α : Type} [DecidableEq α] (l : List α) (a : α) :
    a ∈ dedupFirst l ↔ a ∈ l := by
  simp [dedupFirst, mem_dedupAux]

theorem nodup_dedupFirst {α : Type} [DecidableEq α] (l : List α) :
    (dedupFirst l).Nodup := nodup_dedupAux l []

/-! Helper lemmas about consecutively numbered entry references. -/

theorem refsFrom_append (xs ys : List DictionaryEntry) :
    ∀ n, refsFrom n (xs ++ ys) = refsFrom n xs ++ refsFrom (n + xs.length) ys := by
  induction xs with
  | nil => intro n; simp [refsFrom]
  | cons e es ih =>
      intro n
      simp only [List.cons_append, refsFrom, List.length_cons, List.append_eq]
      rw [ih (n + 1)]
      have h : n + 1 + es.length = n + (es.length + 1) := by omega
      rw [h]

theorem mem_refsFrom_of_mem {e : DictionaryEntry} {l : List DictionaryEntry}
    (h : e ∈ l) : ∀ n, ∃ i, (i, e) ∈ refsFrom n l := by
  induction l with
  | nil => cases h
  | cons x xs ih =>
      intro n
      rcases List.mem_cons.mp h with rfl | h2
      · exact ⟨n, List.mem_cons_self _ _⟩
      · obtain ⟨i, hi⟩ := ih h2 (n + 1)
        exact ⟨i, List.mem_cons_of_mem _ hi⟩

theorem snd_mem_of_mem_refsFrom {v : EntryRef} {l : List DictionaryEntry} :
    ∀ n, v ∈ refsFrom n l → v.2 ∈ l := by
  induction l with
  | nil => intro n h; cases h
  | cons x xs ih =>
      intro n h
      rcases List.mem_cons.mp h with rfl | h2
      · exact List.mem_cons_self _ _
      · exact List.mem_cons_of_mem _ (ih (n + 1) h2)

/-! Helper lemmas about the bucket maps. -/

theorem getBucket_pushBucket (m : List (String × List EntryRef)) (k : String)
    (v : EntryRef) (key : String) :
    getBucket (pushBucket m k v) key
      = getBucket m key ++ (if k = key then [v] else []) := by
  induction m with
  | nil =>
      by_cases h : k = key <;> simp [pushBucket, getBucket, h]
  | cons p rest ih =>
      obtain ⟨k2, vs⟩ := p
      by_cases h2 : k2 = k
      · subst h2
        by_cases h3 : k2 = key <;> simp [pushBucket, getBucket, h3]
      · by_cases h3 : k2 = key
        · subst h3
          have hkk : ¬ k = k2 := fun hc => h2 hc.symm
          simp [pushBucket, h2, getBucket, hkk]
        · simp [pushBucket, h2, getBucket, h3, ih]

end Yonnde

namespace Yonnde

/-! Characterization of the load phase: each loop level only appends to
the bucket maps, never touches the readiness flag, and reports exactly
the malformed file paths. -/

theorem loadEntries_errors (raws : List RawEntry) :
    ∀ st, (loadEntries st raws).errors = st.errors := by
  induction raws with
  | nil => intro st; rfl
  | cons raw rest ih => intro st; simp [loadEntries, ih]

theorem loadEntries_nextId (raws : List RawEntry) :
    ∀ st, (loadEntries st raws).nextId = st.nextId + raws.length := by
  induction raws with
  | nil => intro st; simp [loadEntries]
  | cons raw rest ih =>
      intro st
      simp only [loadEntries, ih, List.length_cons]
      omega

theorem loadEntries_isReady (raws : List RawEntry) :
    ∀ st, (loadEntries st raws).searcher.isReady = st.searcher.isReady := by
  induction raws with
  | nil => intro st; rfl
  | cons raw rest ih => intro st; simp [loadEntries, ih, addEntry]

theorem loadEntries_term (raws : List RawEntry) :
    ∀ st k, getBucket (loadEntries st raws).searcher.termDictionaries k
      = getBucket st.searcher.termDictionaries k
        ++ (refsFrom st.nextId (raws.map formatEntry)).filter (fun v => v.2.term == k) := by
  induction raws with
  | nil => intro st k; simp [loadEntries, refsFrom]
  | cons raw rest ih =>
      intro st k
      simp only [loadEntries]
      rw [ih]
      simp only [addEntry, getBucket_pushBucket, List.map_cons, refsFrom, List.filter_cons]
      by_cases h : (formatEntry raw).term = k
      · simp [h, List.append_assoc]
      · simp [h]

theorem loadEntries_reading (raws : List RawEntry) :
    ∀ st k, getBucket (loadEntries st raws).searcher.readingIndex k
      = getBucket st.searcher.readingIndex k
        ++ (refsFrom st.nextId (raws.map formatEntry)).filter (fun v => v.2.reading == k) := by
  induction raws with
  | nil => intro st k; simp [loadEntries, refsFrom]
  | cons raw rest ih =>
      intro st k
      simp only [loadEntries]
      rw [ih]
      simp only [addEntry, getBucket_pushBucket, List.map_cons, refsFrom, List.filter_cons]
      by_cases h : (formatEntry raw).reading = k
      · simp [h, List.append_assoc]
      · simp [h]

theorem loadFiles_errors (files : List DictFile) :
    ∀ st, (loadFiles st files).errors = st.errors ++ filesBad files := by
  induction files with
  | nil => intro st; simp [loadFiles, filesBad]
  | cons f rest ih =>
      intro st
      cases hf : f.parsed with
      | none =>
          simp [loadFiles, hf, ih, filesBad, fileBad, List.append_assoc]
      | some pj =>
          simp [loadFiles, hf, ih, filesBad, fileBad, loadEntries_errors]

theorem loadFiles_nextId (files : List DictFile) :
    ∀ st, (loadFiles st files).nextId = st.nextId + (filesRaws files).length := by
  induction files with
  | nil => intro st; simp [loadFiles, filesRaws]
  | cons f rest ih =>
      intro st
      cases hf : f.parsed with
      | none =>
          simp only [loadFiles, hf, ih, filesRaws, fileRaws]
          simp [hf]
      | some pj =>
          simp only [loadFiles, hf, ih, filesRaws, fileRaws]
          simp only [loadEntries_nextId, hf, List.length_append]
          omega

theorem loadFiles_isReady (files : List DictFile) :
    ∀ st, (loadFiles st files).searcher.isReady = st.searcher.isReady := by
  induction files with
  | nil => intro st; rfl
  | cons f rest ih =>
      intro st
      cases hf : f.parsed with
      | none => simp [loadFiles, hf, ih]
      | some pj => simp [loadFiles, hf, ih, loadEntries_isReady]

theorem loadFiles_term (files : List DictFile) :
    ∀ st k, getBucket (loadFiles st files).searcher.termDictionaries k
      = getBucket st.searcher.termDictionaries k
        ++ (refsFrom st.nextId ((filesRaws files).map formatEntry)).filter
            (fun v => v.2.term == k) := by
  induction files with
  | nil => intro st k; simp [loadFiles, filesRaws, refsFrom]
  | cons f rest ih =>
      intro st k
      cases hf : f.parsed with
      | none =>
          simp only [loadFiles, hf, ih, filesRaws, fileRaws]
          simp [hf]
      | some pj =>
          simp only [loadFiles, hf, ih, filesRaws, fileRaws]
          simp only [hf, loadEntries_term, loadEntries_nextId, List.map_append,
            refsFrom_append, List.filter_append, List.append_assoc, List.length_map]

theorem loadFiles_reading (files : List DictFile) :
    ∀ st k, getBucket (loadFiles st files).searcher.readingIndex k
      = getBucket st.searcher.readingIndex k
        ++ (refsFrom st.nextId ((filesRaws files).map formatEntry)).filter
            (fun v => v.2.reading == k) := by
  induction files with
  | nil => intro st k; simp [loadFiles, filesRaws, refsFrom]
  | cons f rest ih =>
      intro st k
      cases hf : f.parsed with
      | none =>
          simp only [loadFiles, hf, ih, filesRaws, fileRaws]
          simp [hf]
      | some pj =>
          simp only [loadFiles, hf, ih, filesRaws, fileRaws]
          simp only [hf, loadEntries_reading, loadEntries_nextId, List.map_append,
            refsFrom_append, List.filter_append, List.append_assoc, List.length_map]

theorem loadCollections_errors (cs : List (List DictFile)) :
    ∀ st, (loadCollections st cs).errors = st.errors ++ badPaths cs := by
  induction cs with
  | nil => intro st; simp [loadCollections, badPaths]
  | cons c rest ih =>
      intro st
      simp [loadCollections, ih, loadFiles_errors, badPaths, List.append_assoc]

theorem loadCollections_nextId (cs : List (List DictFile)) :
    ∀ st, (loadCollections st cs).nextId = st.nextId + (goodRaws cs).length := by
  induction cs with
  | nil => intro st; simp [loadCollections, goodRaws]
  | cons c rest ih =>
      intro st
      simp only [loadCollections, ih, loadFiles_nextId, goodRaws, List.length_append]
      omega

theorem loadCollections_isReady (cs : List (List DictFile)) :
    ∀ st, (loadCollections st cs).searcher.isReady = st.searcher.isReady := by
  induction cs with
  | nil => intro st; rfl
  | cons c rest ih => intro st; simp [loadCollections, ih, loadFiles_isReady]

theorem loadCollections_term (cs : List (List DictFile)) :
    ∀ st k, getBucket (loadCollections st cs).searcher.termDictionaries k
      = getBucket st.searcher.termDictionaries k
        ++ (refsFrom st.nextId ((goodRaws cs).map formatEntry)).filter
            (fun v => v.2.term == k) := by
  induction cs with
  | nil => intro st k; simp [loadCollections, goodRaws, refsFrom]
  | cons c rest ih =>
      intro st k
      simp only [loadCollections, ih, loadFiles_term, loadFiles_nextId, goodRaws,
        List.map_append, refsFrom_append, List.filter_append, List.append_assoc,
        List.length_map]

theorem loadCollections_reading (cs : List (List DictFile)) :
    ∀ st k, getBucket (loadCollections st cs).searcher.readingIndex k
      = getBucket st.searcher.readingIndex k
        ++ (refsFrom st.nextId ((goodRaws cs).map formatEntry)).filter
            (fun v => v.2.reading == k) := by
  induction cs with
  | nil => intro st k; simp [loadCollections, goodRaws, refsFrom]
  | cons c rest ih =>
      intro st k
      simp only [loadCollections, ih, loadFiles_reading, loadFiles_nextId, goodRaws,
        List.map_append, refsFrom_append, List.filter_append, List.append_assoc,
        List.length_map]

/-! The loaded searcher in closed form. -/

theorem loadDictionaries_isReady (cs : List (List DictFile)) :
    (loadDictionaries cs).1.isReady = true := rfl

theorem loadDictionaries_errors (cs : List (List DictFile)) :
    (loadDictionaries cs).2 = badPaths cs := by
  simp [loadDictionaries, loadCollections_errors, newSearcher]

theorem loadDictionaries_term (cs : List (List DictFile)) (k : String) :
    getBucket (loadDictionaries cs).1.termDictionaries k
      = (refsFrom 0 (goodEntries cs)).filter (fun v => v.2.term == k) := by
  simp [loadDictionaries, loadCollections_term, newSearcher, getBucket, goodEntries]

theorem loadDictionaries_reading (cs : List (List DictFile)) (k : String) :
    getBucket (loadDictionaries cs).1.readingIndex k
      = (refsFrom 0 (goodEntries cs)).filter (fun v => v.2.reading == k) := by
  simp [loadDictionaries, loadCollections_reading, newSearcher, getBucket, goodEntries]

theorem findTerm_ready {s : Searcher} (h : s.isReady = true) (key : String) :
    findTerm s key
      = .ok (dedupFirst (getBucket s.termDictionaries key
          ++ getBucket s.readingIndex key)) := by
  simp [findTerm, h]

end Yonnde

namespace Yonnde

/-! Behaviour of one pass of the per-collection query loop. -/

theorem resolveCollections_exact_step (f : String → String) (q : String)
    (memo : Option String) (name : String) (bank : List PEntry)
    (rest : List (String × List PEntry)) (hx : exactMatches q bank ≠ []) :
    resolveCollections f q memo ((name, bank) :: rest)
      = ((name, exactMatches q bank) :: (resolveCollections f q memo rest).1,
         (resolveCollections f q memo rest).2) := by
  have h : (exactMatches q bank).isEmpty = false := by
    simp [List.isEmpty_iff, hx]
  simp [resolveCollections, h]

theorem resolveCollections_memoized (f : String → String) (q s : String)
    (hs : s ≠ "") :
    ∀ banks, (resolveCollections f q (some s) banks).2 = 0 := by
  intro banks
  induction banks with
  | nil => rfl
  | cons nb rest ih =>
      obtain ⟨name, bank⟩ := nb
      by_cases hx : (exactMatches q bank).isEmpty
      · have hfalsy : basicFormFalsy (some s) = false := by
          simp [basicFormFalsy, hs]
        simp only [resolveCollections, hx, if_true, hfalsy, if_false]
        simp [ih]
      · simp only [resolveCollections, hx, if_false]
        simpa using ih

theorem resolveCollections_calls_le_one (f : String → String) (q : String)
    (hf : f q ≠ "") :
    ∀ banks, (resolveCollections f q none banks).2 ≤ 1 := by
  intro banks
  induction banks with
  | nil => simp [resolveCollections]
  | cons nb rest ih =>
      obtain ⟨name, bank⟩ := nb
      by_cases hx : (exactMatches q bank).isEmpty
      · simp only [resolveCollections, hx, if_true, basicFormFalsy]
        simp [resolveCollections_memoized f q (f q) hf rest]
      · simp only [resolveCollections, hx, if_false]
        simpa using ih

theorem resolveCollections_all_exact (f : String → String) (q : String) :
    ∀ banks, (∀ nb ∈ banks, exactMatches q nb.2 ≠ []) →
      ∀ memo, (resolveCollections f q memo banks).2 = 0 := by
  intro banks
  induction banks with
  | nil => intro _ memo; rfl
  | cons nb rest ih =>
      intro hall memo
      obtain ⟨name, bank⟩ := nb
      rw [resolveCollections_exact_step f q memo name bank rest
        (hall (name, bank) (List.mem_cons_self _ _))]
      exact ih (fun x hx => hall x (List.mem_cons_of_mem _ hx)) memo

/-- C2: a collection containing at least one exact match contributes
exactly its exact matches, adds no lemma-capability invocation, leaves the
memo untouched, and its contribution is identical under any two `baseForm`
capabilities and any memo states — the lemma capability cannot influence
that collection's result. -/
theorem c2_exact_match_result_lemma_free (f g : String → String) (q name : String)
    (bank : List PEntry) (rest rest2 : List (String × List PEntry))
    (memo memo2 : Option String) (hx : exactMatches q bank ≠ []) :
    resolveCollections f q memo ((name, bank) :: rest)
      = ((name, exactMatches q bank) :: (resolveCollections f q memo rest).1,
         (resolveCollections f q memo rest).2)
  ∧ (resolveCollections f q memo ((name, bank) :: rest)).1.head?
      = (resolveCollections g q memo2 ((name, bank) :: rest2)).1.head? := by
  refine ⟨resolveCollections_exact_step f q memo name bank rest hx, ?_⟩
  rw [resolveCollections_exact_step f q memo name bank rest hx,
    resolveCollections_exact_step g q memo2 name bank rest2 hx]
  rfl

/-- C2 witness: in a one-collection query whose bank matches the query
exactly, the result is the exact matches and the head contribution is the
same under two different capabilities and memo states. -/
theorem c2_exact_match_result_lemma_free_witness :
    resolveCollections (fun _ => "u") "x" none
        [("A", [⟨"x", "y", "", "", "", Content.text "d"⟩])]
      = ([("A", exactMatches "x" [⟨"x", "y", "", "", "", Content.text "d"⟩])],
         (resolveCollections (fun _ => "u") "x" none []).2)
  ∧ (resolveCollections (fun _ => "u") "x" none
        [("A", [⟨"x", "y", "", "", "", Content.text "d"⟩])]).1.head?
      = (resolveCollections (fun _ => "v") "x" (some "z")
        [("A", [⟨"x", "y", "", "", "", Content.text "d"⟩])]).1.head? := by
  have hx : exactMatches "x" [(⟨"x", "y", "", "", "", Content.text "d"⟩ : PEntry)] ≠ [] := by
    have h1 : exactMatches "x" [(⟨"x", "y", "", "", "", Content.text "d"⟩ : PEntry)]
        = [⟨"x", "y", "", "", "", Content.text "d"⟩] := rfl
    rw [h1]
    exact List.cons_ne_nil _ _
  have h := c2_exact_match_result_lemma_free (fun _ => "u") (fun _ => "v") "x" "A"
    [⟨"x", "y", "", "", "", Content.text "d"⟩] [] [] none (some "z") hx
  exact ⟨h.1, h.2⟩

/-- C3 counterexample: when the external tokenizer returns the empty
string as the base form, the JS falsy test `!basicForm` treats the memo as
unset, so a two-collection query with no exact matches invokes the lemma
capability twice — the lemma form is not computed at most once per query. -/
theorem c3_lemma_computed_twice_counterexample :
    1 < (resolveCollections (fun _ => "") "x" none
      [("A", [⟨"a", "b", "", "", "", Content.text "d"⟩]),
       ("B", [⟨"a", "b", "", "", "", Content.text "d"⟩])]).2 := by
  decide

/-- C3 (amended): within one query the lemma form is computed lazily and,
provided the computed form is non-empty, at most once — once memoized it
is reused with no further invocation; a query whose collections all have
exact matches never invokes it; and collections are resolved
independently: a collection with an exact match passes the memo and the
remaining collections on exactly as if it were absent, so an exact match
in one collection never suppresses the fallback lookup in another.  (When
the computed lemma form is the empty string the falsy memo test makes the
code recompute it for each later collection without an exact match.) -/
theorem c3_lemma_memoized_amended (f : String → String) (q : String)
    (banks : List (String × List PEntry)) :
    (f q ≠ "" → (resolveCollections f q none banks).2 ≤ 1)
  ∧ (f q ≠ "" → (resolveCollections f q (some (f q)) banks).2 = 0)
  ∧ ((∀ nb ∈ banks, exactMatches q nb.2 ≠ []) →
      (resolveCollections f q none banks).2 = 0)
  ∧ (∀ name bank rest memo, exactMatches q bank ≠ [] →
      resolveCollections f q memo ((name, bank) :: rest)
        = ((name, exactMatches q bank) :: (resolveCollections f q memo rest).1,
           (resolveCollections f q memo rest).2)) := by
  refine ⟨fun hf => resolveCollections_calls_le_one f q hf banks,
    fun hf => resolveCollections_memoized f q (f q) hf banks,
    fun hall => resolveCollections_all_exact f q banks hall none,
    fun name bank rest memo hx => resolveCollections_exact_step f q memo name bank rest hx⟩

/-- C3 witness: with a capability returning a non-empty base form and two
collections without exact matches, the lemma capability is invoked at most
once. -/
theorem c3_lemma_memoized_amended_witness :
    (resolveCollections (fun _ => "y") "x" none
      [("A", [⟨"a", "b", "", "", "", Content.text "d"⟩]),
       ("B", [⟨"a", "b", "", "", "", Content.text "d"⟩])]).2 ≤ 1 := by
  have h := c3_lemma_memoized_amended (fun _ => "y") "x"
    [("A", [⟨"a", "b", "", "", "", Content.text "d"⟩]),
     ("B", [⟨"a", "b", "", "", "", Content.text "d"⟩])]
  exact h.1 (by decide)

/-- C4: `DictionaryApp.getBasicForm` of `index.ts` returns the query
unchanged when the external tokenizer produces no tokens, instead of
failing. -/
theorem c4_empty_tokenization_returns_query (tokenize : String → List KuromojiToken)
    (searchTerm : String) (h : tokenize searchTerm = []) :
    getBasicForm tokenize searchTerm = searchTerm := by
  simp [getBasicForm, h]

/-- C4 witness: a tokenizer returning no tokens on the query leaves the
query unchanged. -/
theorem c4_empty_tokenization_returns_query_witness :
    getBasicForm (fun _ => []) "猫" = "猫" :=
  c4_empty_tokenization_returns_query (fun _ => []) "猫" rfl

end Yonnde

namespace Yonnde

/-- C5: a lookup on a freshly constructed searcher — and on the searcher in
any state the load loop can reach before `loadDictionaries` finishes —
raises the distinct 'Dictionaries not loaded' error and never returns a
result (empty or otherwise); once loading completes the lookup always
returns a result and never raises this error. -/
theorem c5_not_ready_lookup_errors (key : String) (cs : List (List DictFile)) :
    findTerm newSearcher key = .error "Dictionaries not loaded"
  ∧ (loadCollections ⟨newSearcher, [], 0⟩ cs).searcher.isReady = false
  ∧ findTerm (loadCollections ⟨newSearcher, [], 0⟩ cs).searcher key
      = .error "Dictionaries not loaded"
  ∧ (∀ r, findTerm (loadCollections ⟨newSearcher, [], 0⟩ cs).searcher key
      ≠ .ok r)
  ∧ (∃ r, findTerm (loadDictionaries cs).1 key = .ok r) := by
  have hmid : (loadCollections ⟨newSearcher, [], 0⟩ cs).searcher.isReady = false := by
    rw [loadCollections_isReady]
    rfl
  have hmidFind : findTerm (loadCollections ⟨newSearcher, [], 0⟩ cs).searcher key
      = .error "Dictionaries not loaded" := by
    simp [findTerm, hmid]
  refine ⟨rfl, hmid, hmidFind, fun r hr => ?_, ?_⟩
  · rw [hmidFind] at hr
    exact Except.noConfusion hr
  · exact ⟨_, findTerm_ready (loadDictionaries_isReady cs) key⟩

/-- C9: entry normalization is total: for every raw tuple (with a term),
the tag list is the tag string split on single spaces with empty segments
dropped (so it never contains an empty tag, and leading, trailing and
doubled spaces are handled), and absent-or-falsy rules, score, sequence
and termTags positions default to the empty string or zero. -/
theorem c9_normalize_total_defaults (raw : RawEntry) :
    (formatEntry raw).tags
        = (jsSplit ' ' (raw.tagString.getD "")).filter (fun t => t ≠ "")
  ∧ (∀ t ∈ (formatEntry raw).tags, t ≠ "")
  ∧ (strFalsy raw.tagString → (formatEntry raw).tags = [])
  ∧ (strFalsy raw.rules → (formatEntry raw).rules = "")
  ∧ (intFalsy raw.score → (formatEntry raw).score = 0)
  ∧ (intFalsy raw.sequence → (formatEntry raw).sequence = 0)
  ∧ (strFalsy raw.termTags → (formatEntry raw).termTags = "")
  ∧ (formatEntry raw).term = raw.term ∧ (formatEntry raw).reading = raw.reading := by
  refine ⟨rfl, ?_, ?_, ?_, ?_, ?_, ?_, rfl, rfl⟩
  · intro t ht
    have := List.of_mem_filter ht
    simpa using this
  · rintro (h | h) <;> simp [formatEntry, h, jsSplit, splitCharList]
  · rintro (h | h) <;> simp [formatEntry, h]
  · rintro (h | h) <;> simp [formatEntry, h]
  · rintro (h | h) <;> simp [formatEntry, h]
  · rintro (h | h) <;> simp [formatEntry, h]

/-- C9 witness: a tuple with only a term, a reading and a ragged tag
string normalizes with the documented defaults, and the ragged tag string
splits cleanly. -/
theorem c9_normalize_total_defaults_witness :
    (formatEntry ⟨"t", "r", some " a  b ", none, none, Content.text "d", none, none⟩).rules = ""
  ∧ (formatEntry ⟨"t", "r", some " a  b ", none, none, Content.text "d", none, none⟩).score = 0
  ∧ (formatEntry ⟨"t", "r", some " a  b ", none, none, Content.text "d", none, none⟩).sequence = 0
  ∧ (formatEntry ⟨"t", "r", some " a  b ", none, none, Content.text "d", none, none⟩).termTags = ""
  ∧ (formatEntry ⟨"t", "r", some " a  b ", none, none, Content.text "d", none, none⟩).tags
      = ["a", "b"] := by
  have h := c9_normalize_total_defaults
    ⟨"t", "r", some " a  b ", none, none, Content.text "d", none, none⟩
  refine ⟨h.2.2.2.1 (Or.inl rfl), h.2.2.2.2.1 (Or.inl rfl),
    h.2.2.2.2.2.1 (Or.inl rfl), h.2.2.2.2.2.2.1 (Or.inl rfl), ?_⟩
  rw [h.1]
  decide

end Yonnde

namespace Yonnde

/-! Distribution of the derived input lists over list append. -/

theorem filesRaws_append (xs ys : List DictFile) :
    filesRaws (xs ++ ys) = filesRaws xs ++ filesRaws ys := by
  induction xs with
  | nil => simp [filesRaws]
  | cons f rest ih => simp [filesRaws, ih]

theorem filesBad_append (xs ys : List DictFile) :
    filesBad (xs ++ ys) = filesBad xs ++ filesBad ys := by
  induction xs with
  | nil => simp [filesBad]
  | cons f rest ih => simp [filesBad, ih]

theorem goodRaws_append (xs ys : List (List DictFile)) :
    goodRaws (xs ++ ys) = goodRaws xs ++ goodRaws ys := by
  induction xs with
  | nil => simp [goodRaws]
  | cons c rest ih => simp [goodRaws, ih]

theorem badPaths_append (xs ys : List (List DictFile)) :
    badPaths (xs ++ ys) = badPaths xs ++ badPaths ys := by
  induction xs with
  | nil => simp [badPaths]
  | cons c rest ih => simp [badPaths, ih]

/-! An accepted entry is always found under its term and its reading. -/

theorem found_by_term (cs : List (List DictFile)) {raw : RawEntry}
    (h : raw ∈ goodRaws cs) :
    ∃ id r, findTerm (loadDictionaries cs).1 (formatEntry raw).term = .ok r
      ∧ (id, formatEntry raw) ∈ r ∧ r ≠ [] := by
  have he : formatEntry raw ∈ goodEntries cs := List.mem_map_of_mem _ h
  obtain ⟨i, hi⟩ := mem_refsFrom_of_mem he 0
  have hm : (i, formatEntry raw) ∈ dedupFirst
      (getBucket (loadDictionaries cs).1.termDictionaries (formatEntry raw).term
        ++ getBucket (loadDictionaries cs).1.readingIndex (formatEntry raw).term) := by
    rw [mem_dedupFirst]
    apply List.mem_append_left
    rw [loadDictionaries_term]
    exact List.mem_filter.mpr ⟨hi, by simp⟩
  exact ⟨i, _, findTerm_ready (loadDictionaries_isReady cs) _, hm,
    List.ne_nil_of_mem hm⟩

theorem found_by_reading (cs : List (List DictFile)) {raw : RawEntry}
    (h : raw ∈ goodRaws cs) :
    ∃ id r, findTerm (loadDictionaries cs).1 (formatEntry raw).reading = .ok r
      ∧ (id, formatEntry raw) ∈ r ∧ r ≠ [] := by
  have he : formatEntry raw ∈ goodEntries cs := List.mem_map_of_mem _ h
  obtain ⟨i, hi⟩ := mem_refsFrom_of_mem he 0
  have hm : (i, formatEntry raw) ∈ dedupFirst
      (getBucket (loadDictionaries cs).1.termDictionaries (formatEntry raw).reading
        ++ getBucket (loadDictionaries cs).1.readingIndex (formatEntry raw).reading) := by
    rw [mem_dedupFirst]
    apply List.mem_append_right
    rw [loadDictionaries_reading]
    exact List.mem_filter.mpr ⟨hi, by simp⟩
  exact ⟨i, _, findTerm_ready (loadDictionaries_isReady cs) _, hm,
    List.ne_nil_of_mem hm⟩

/-- C1: on the loaded (ready) index, `findTerm` returns the union of the
term bucket and the reading bucket with duplicate references removed
(first occurrence kept, no duplicates, nothing beyond the two buckets);
a key matching no entry's term or reading yields the empty list rather
than an error; and every accepted entry is found — with a non-empty
result containing it — both under its term and under its reading, because
each entry is indexed under both. -/
theorem c1_findTerm_union_of_buckets (cs : List (List DictFile)) (key : String) :
    findTerm (loadDictionaries cs).1 key
      = .ok (dedupFirst (getBucket (loadDictionaries cs).1.termDictionaries key
          ++ getBucket (loadDictionaries cs).1.readingIndex key))
  ∧ ((∀ raw ∈ goodRaws cs, (formatEntry raw).term ≠ key ∧ (formatEntry raw).reading ≠ key) →
      findTerm (loadDictionaries cs).1 key = .ok [])
  ∧ (∀ raw ∈ goodRaws cs, ∃ id r,
      findTerm (loadDictionaries cs).1 (formatEntry raw).term = .ok r
        ∧ (id, formatEntry raw) ∈ r ∧ r ≠ [])
  ∧ (∀ raw ∈ goodRaws cs, ∃ id r,
      findTerm (loadDictionaries cs).1 (formatEntry raw).reading = .ok r
        ∧ (id, formatEntry raw) ∈ r ∧ r ≠ [])
  ∧ (∀ r, findTerm (loadDictionaries cs).1 key = .ok r →
      r.Nodup ∧ ∀ v, v ∈ r ↔
        (v ∈ getBucket (loadDictionaries cs).1.termDictionaries key
          ∨ v ∈ getBucket (loadDictionaries cs).1.readingIndex key)) := by
  refine ⟨findTerm_ready (loadDictionaries_isReady cs) key, ?_, ?_, ?_, ?_⟩
  · intro hab
    have ht : getBucket (loadDictionaries cs).1.termDictionaries key = [] := by
      rw [loadDictionaries_term]
      apply List.filter_eq_nil_iff.mpr
      intro v hv
      obtain ⟨raw2, hraw2, hfe⟩ :=
        List.mem_map.mp (snd_mem_of_mem_refsFrom 0 hv)
      simp [← hfe, (hab raw2 hraw2).1]
    have hr : getBucket (loadDictionaries cs).1.readingIndex key = [] := by
      rw [loadDictionaries_reading]
      apply List.filter_eq_nil_iff.mpr
      intro v hv
      obtain ⟨raw2, hraw2, hfe⟩ :=
        List.mem_map.mp (snd_mem_of_mem_refsFrom 0 hv)
      simp [← hfe, (hab raw2 hraw2).2]
    rw [findTerm_ready (loadDictionaries_isReady cs) key, ht, hr]
    rfl
  · exact fun raw h => found_by_term cs h
  · exact fun raw h => found_by_reading cs h
  · intro r hr
    rw [findTerm_ready (loadDictionaries_isReady cs) key] at hr
    injection hr with hr
    subst hr
    exact ⟨nodup_dedupFirst _, fun v => by rw [mem_dedupFirst, List.mem_append]⟩

/-- C1 witness: loading one collection with one file containing one entry
and looking it up by its reading succeeds with the indexed entry. -/
theorem c1_findTerm_union_of_buckets_witness :
    ∃ id r, findTerm (loadDictionaries
        [[⟨"jmdict/term_bank_1.json",
            some (.arr [⟨"猫", "ねこ", none, none, none, Content.text "cat", none, none⟩])⟩]]).1
      (formatEntry ⟨"猫", "ねこ", none, none, none, Content.text "cat", none, none⟩).reading
        = .ok r
      ∧ (id, formatEntry ⟨"猫", "ねこ", none, none, none, Content.text "cat", none, none⟩) ∈ r
      ∧ r ≠ [] := by
  have h := c1_findTerm_union_of_buckets
    [[⟨"jmdict/term_bank_1.json",
        some (.arr [⟨"猫", "ねこ", none, none, none, Content.text "cat", none, none⟩])⟩]] "ねこ"
  exact h.2.2.2.1 ⟨"猫", "ねこ", none, none, none, Content.text "cat", none, none⟩
    (by simp [goodRaws, filesRaws, fileRaws, entriesOf])

end Yonnde

namespace Yonnde

/-- C6: a file whose content fails to parse is reported by its path, and
only that file is skipped — the loaded index behaves identically (for
every lookup key) to the index loaded from the same tree without the bad
file, so sibling files and the other collections still load and every
accepted entry is still found in the index. -/
theorem c6_parse_error_skips_single_file (pre post : List (List DictFile))
    (sib1 sib2 : List DictFile) (badf : DictFile) (hbad : badf.parsed = none) :
    badf.path ∈ (loadDictionaries (pre ++ (sib1 ++ badf :: sib2) :: post)).2
  ∧ (∀ key, findTerm (loadDictionaries (pre ++ (sib1 ++ badf :: sib2) :: post)).1 key
      = findTerm (loadDictionaries (pre ++ (sib1 ++ sib2) :: post)).1 key)
  ∧ (∀ raw ∈ goodRaws (pre ++ (sib1 ++ badf :: sib2) :: post), ∃ id r,
      findTerm (loadDictionaries (pre ++ (sib1 ++ badf :: sib2) :: post)).1
          (formatEntry raw).term = .ok r
        ∧ (id, formatEntry raw) ∈ r ∧ r ≠ []) := by
  have hraws : goodRaws (pre ++ (sib1 ++ badf :: sib2) :: post)
      = goodRaws (pre ++ (sib1 ++ sib2) :: post) := by
    rw [goodRaws_append, goodRaws_append]
    simp [goodRaws, filesRaws_append, filesRaws, fileRaws, hbad]
  refine ⟨?_, ?_, fun raw h => found_by_term _ h⟩
  · rw [loadDictionaries_errors, badPaths_append]
    apply List.mem_append_right
    simp [badPaths, filesBad_append, filesBad, fileBad, hbad]
  · intro key
    rw [findTerm_ready (loadDictionaries_isReady _) key,
      findTerm_ready (loadDictionaries_isReady _) key,
      loadDictionaries_term, loadDictionaries_term,
      loadDictionaries_reading, loadDictionaries_reading,
      goodEntries, goodEntries, hraws]

/-- C6 witness: one collection holding a malformed file followed by a good
file: the bad path is reported, lookups agree with the bad-file-free load,
and the good file's entry is found. -/
theorem c6_parse_error_skips_single_file_witness :
    "jmdict/broken.json" ∈ (loadDictionaries
      [[⟨"jmdict/broken.json", none⟩,
        ⟨"jmdict/term_bank_1.json",
          some (.arr [⟨"犬", "いぬ", none, none, none, Content.text "dog", none, none⟩])⟩]]).2
  ∧ (∀ key, findTerm (loadDictionaries
      [[⟨"jmdict/broken.json", none⟩,
        ⟨"jmdict/term_bank_1.json",
          some (.arr [⟨"犬", "いぬ", none, none, none, Content.text "dog", none, none⟩])⟩]]).1 key
      = findTerm (loadDictionaries
      [[⟨"jmdict/term_bank_1.json",
          some (.arr [⟨"犬", "いぬ", none, none, none, Content.text "dog", none, none⟩])⟩]]).1 key) := by
  have h := c6_parse_error_skips_single_file [] []
    []
    [⟨"jmdict/term_bank_1.json",
      some (.arr [⟨"犬", "いぬ", none, none, none, Content.text "dog", none, none⟩])⟩]
    ⟨"jmdict/broken.json", none⟩ rfl
  exact ⟨h.1, h.2.1⟩

end Yonnde

namespace Yonnde

/-! Every line the flattener emits carries its emission-point indent, a
single separator space, and a trimmed payload. -/

theorem indentExt_leading (k : Nat) (x : String) :
    ∃ r, (indentExt k ++ " ") ++ x = " " ++ r := by
  induction k with
  | zero => exact ⟨x, by simp [indentExt, String.empty_append]⟩
  | succ n ih =>
      refine ⟨(" " ++ indentExt n ++ " ") ++ x, ?_⟩
      have h2 : ("  " : String) = " " ++ " " := rfl
      simp only [indentExt, h2, String.append_assoc]

mutual

theorem logContent_shape (c : Content) : ∀ indent line : String,
    line ∈ logContent c indent →
    ∃ k t, line = indent ++ indentExt k ++ " " ++ jsTrim t :=
  match c with
  | .text s => fun indent line h => by
      simp only [logContent] at h
      obtain ⟨t, ht, rfl⟩ := List.mem_map.mp h
      exact ⟨0, t, by simp [indentExt, String.append_empty]⟩
  | .list items => fun indent line h =>
      logContentList_shape items indent line h
  | .node o => fun indent line h =>
      logContentNode_shape o indent line h

theorem logContentNode_shape (o : Option Content) : ∀ indent line : String,
    line ∈ logContentNode o indent →
    ∃ k t, line = indent ++ indentExt k ++ " " ++ jsTrim t :=
  match o with
  | none => fun indent line h => by simp [logContentNode] at h
  | some (.text s) => fun indent line h => by
      simp only [logContentNode] at h
      by_cases hs : s = ""
      · simp [hs] at h
      · rw [if_neg hs] at h
        rcases List.mem_singleton.mp h with rfl
        exact ⟨0, s, by simp [indentExt, String.append_empty]⟩
  | some (.list l) => fun indent line h => by
      have h2 := logContentList_shape l (indent ++ "  ") line h
      obtain ⟨k, t, ht⟩ := h2
      exact ⟨k + 1, t, by rw [ht]; simp [indentExt, String.append_assoc]⟩
  | some (.node c) => fun indent line h => by
      have h2 := logContentNode_shape c (indent ++ "  ") line h
      obtain ⟨k, t, ht⟩ := h2
      exact ⟨k + 1, t, by rw [ht]; simp [indentExt, String.append_assoc]⟩

theorem logContentList_shape (l : List Content) : ∀ indent line : String,
    line ∈ logContentList l indent →
    ∃ k t, line = indent ++ indentExt k ++ " " ++ jsTrim t :=
  match l with
  | [] => fun indent line h => by simp [logContentList] at h
  | item :: rest => fun indent line h => by
      simp only [logContentList] at h
      rcases List.mem_append.mp h with h1 | h2
      · exact logContent_shape item indent line h1
      · exact logContentList_shape rest indent line h2

end

/-- C7 counterexample: flattening the text `"a\nb\n\nc"` at the top level
does not yield the lines `"a"`, `"b"`, `"c"`: each emitted line carries
the one-space separator between the (empty) indent and the trimmed text,
so the actual lines are `" a"`, `" b"`, `" c"`. -/
theorem c7_flatten_text_counterexample :
    logContent (.text "a\nb\n\nc") "" = [" a", " b", " c"]
  ∧ logContent (.text "a\nb\n\nc") "" ≠ ["a", "b", "c"] := by
  decide

/-- C7 (amended): flattening a text splits it on newline, drops the lines
that are blank after trimming, and emits each remaining line as the
current indent, then a single separator space, then the line trimmed of
surrounding whitespace; flattening `"a\nb\n\nc"` therefore yields exactly
three lines whose trimmed contents are `"a"`, `"b"`, `"c"` in that order,
each rendered as the indent followed by a space and the content. -/
theorem c7_flatten_text_amended (indent : String) :
    logContent (.text "a\nb\n\nc") indent
        = [indent ++ " a", indent ++ " b", indent ++ " c"]
  ∧ (logContent (.text "a\nb\n\nc") "").map jsTrim = ["a", "b", "c"]
  ∧ (∀ s, logContent (.text s) indent
      = ((jsSplit '\n' s).filter (fun line => jsTrim line ≠ "")).map
          (fun line => indent ++ " " ++ jsTrim line)) := by
  refine ⟨?_, by decide, fun s => rfl⟩
  show ((jsSplit '\n' "a\nb\n\nc").filter (fun line => jsTrim line ≠ "")).map
      (fun line => indent ++ " " ++ jsTrim line) = _
  have h1 : ((jsSplit '\n' "a\nb\n\nc").filter (fun line => jsTrim line ≠ ""))
      = ["a", "b", "c"] := by decide
  rw [h1]
  simp only [List.map_cons, List.map_nil]
  have ha : jsTrim "a" = "a" := by decide
  have hb : jsTrim "b" = "b" := by decide
  have hc : jsTrim "c" = "c" := by decide
  rw [ha, hb, hc, String.append_assoc, String.append_assoc, String.append_assoc]
  rfl

/-- C8: the flattener's object dispatch: a string `content` field is
emitted as one line at the current indent (not increased); a `content`
field holding an array or another object recurses with the indent grown
by exactly two spaces; an absent `content` field emits nothing; and the
doubly wrapped list `\x7b"content":\x7b"content":["line1","line2"]\x7d\x7d`
flattens to its two lines at one common deeper indent. -/
theorem c8_node_content_dispatch (indent s : String) (l : List Content)
    (c : Option Content) :
    logContent (.node (some (.text s))) indent
        = (if s = "" then [] else [indent ++ " " ++ jsTrim s])
  ∧ logContent (.node (some (.list l))) indent = logContent (.list l) (indent ++ "  ")
  ∧ logContent (.node (some (.node c))) indent = logContent (.node c) (indent ++ "  ")
  ∧ logContent (.node none) indent = []
  ∧ logContent (.node (some (.node (some (.list [.text "line1", .text "line2"]))))) ""
      = ["     line1", "     line2"] := by
  exact ⟨rfl, rfl, rfl, rfl, by decide⟩

/-- C10: every line the flattener emits has the form of its emission-point
indent (the call's indent plus two spaces per structural nesting level),
one separator space, and the trimmed line content; hence at the top level
(empty indent) every output line begins with a leading space — exactly one
before the trimmed content when no nesting has grown the indent, as the
exact per-text-node emission template shows. -/
theorem c10_emitted_line_form :
    (∀ data indent line, line ∈ logContent data indent →
      ∃ k t, line = indent ++ indentExt k ++ " " ++ jsTrim t)
  ∧ (∀ data line, line ∈ logContent data "" → ∃ r, line = " " ++ r)
  ∧ (∀ s indent, logContent (.text s) indent
      = ((jsSplit '\n' s).filter (fun line => jsTrim line ≠ "")).map
          (fun line => indent ++ " " ++ jsTrim line)) := by
  refine ⟨fun data indent line h => logContent_shape data indent line h, ?_,
    fun s indent => rfl⟩
  intro data line h
  obtain ⟨k, t, rfl⟩ := logContent_shape data "" line h
  obtain ⟨r, hr⟩ := indentExt_leading k (jsTrim t)
  refine ⟨r, ?_⟩
  rw [← hr]
  simp [String.empty_append, String.append_assoc]

/-- C10 witness: the single line flattened from a top-level text consists
of one space and the trimmed text. -/
theorem c10_emitted_line_form_witness :
    ∃ k t, " hi" = "" ++ indentExt k ++ " " ++ jsTrim t :=
  c10_emitted_line_form.1 (.text "hi") "" " hi" (by decide)

end Yonnde

namespace Yonnde

/-- The older build's `getBasicForm` (no length guard) has no value on an
empty tokenization: the `tokens[0].basic_form` access fails there, unlike
the guarded version of `index.ts`. -/
theorem getBasicFormLegacy_empty_fails (tokenize : String → List KuromojiToken)
    (searchTerm : String) (h : tokenize searchTerm = []) :
    getBasicFormLegacy tokenize searchTerm = none := by
  simp [getBasicFormLegacy, h]

end Yonnde
